import Mathlib

/-!
Verification of the numeric core of the CESM-LENS cookbook notebook:
the duration-weighted annual mean (`weighted_temporal_mean`), the
area-weighted global mean, the per-slice linear-trend estimator
(`linear_trend` / `calc_slope`), and the December-anchored quarterly
resample used for the winter-season count.

Floating-point values are embedded as `EFloat`: a finite rational, one of
the two infinities, or NaN, with IEEE-754-style arithmetic (finite values
are exact rationals, so no rounding is modelled; the claims under study
are about exact weighting identities, masks and counts, not rounding).
-/

namespace CesmLens

/-- An IEEE-754-style scalar: a finite value (exact rational), positive or
negative infinity, or NaN. -/
inductive EFloat where
  | finite (q : ℚ)
  | pinf
  | ninf
  | nan
  deriving DecidableEq, Repr

namespace EFloat

/-- `np.isnan` / `xr.DataArray.isnull` on a scalar: true exactly on NaN. -/
def isnan : EFloat → Bool
  | nan => true
  | _ => false

/-- True exactly on finite values. -/
def isFinite : EFloat → Bool
  | finite _ => true
  | _ => false

/-- The rational carried by a finite value (junk `0` otherwise). -/
def val : EFloat → ℚ
  | finite q => q
  | _ => 0

/-- IEEE-754 addition: NaN absorbs, opposite infinities give NaN. -/
def add : EFloat → EFloat → EFloat
  | nan, _ => nan
  | _, nan => nan
  | finite a, finite b => finite (a + b)
  | pinf, ninf => nan
  | ninf, pinf => nan
  | pinf, _ => pinf
  | _, pinf => pinf
  | ninf, _ => ninf
  | _, ninf => ninf

/-- IEEE-754 multiplication: NaN absorbs, `0 * ±inf = NaN`, signs multiply. -/
def mul : EFloat → EFloat → EFloat
  | nan, _ => nan
  | _, nan => nan
  | finite a, finite b => finite (a * b)
  | finite a, pinf => if 0 < a then pinf else if a < 0 then ninf else nan
  | finite a, ninf => if 0 < a then ninf else if a < 0 then pinf else nan
  | pinf, finite b => if 0 < b then pinf else if b < 0 then ninf else nan
  | ninf, finite b => if 0 < b then ninf else if b < 0 then pinf else nan
  | pinf, pinf => pinf
  | pinf, ninf => ninf
  | ninf, pinf => ninf
  | ninf, ninf => pinf

/-- IEEE-754 division: NaN absorbs, `0/0 = NaN`, `inf/inf = NaN`,
finite over (unsigned) zero gives an infinity, finite over infinity gives 0.
(The embedding has no signed zero; division by zero takes the `+0` branch.) -/
def div : EFloat → EFloat → EFloat
  | nan, _ => nan
  | _, nan => nan
  | finite a, finite b =>
      if b = 0 then (if a = 0 then nan else if 0 < a then pinf else ninf)
      else finite (a / b)
  | finite _, pinf => finite 0
  | finite _, ninf => finite 0
  | pinf, finite b => if 0 ≤ b then pinf else ninf
  | ninf, finite b => if 0 ≤ b then ninf else pinf
  | pinf, _ => nan
  | ninf, _ => nan

end EFloat

/-- `xarray` reduction `.sum(dim=...)` with its default `skipna=True`:
NaN entries are dropped and the rest are summed; an empty sum is `0.0`. -/
def skipnaSum (l : List EFloat) : EFloat :=
  (l.filter (fun v => !v.isnan)).foldr EFloat.add (EFloat.finite 0)

/-- A value that is finite or NaN (the only values occurring in the
datasets: missing samples are encoded as NaN, never as infinities). -/
def finOrNan (v : EFloat) : Bool := v.isFinite || v.isnan

/-! ## Duration-weighted annual mean (`weighted_temporal_mean`)

The notebook's function, per spatial point (the trailing
`.mean(("lat","lon"))` spatial average is outside the claims under
study, which concern the per-year time aggregation):

    time_bound_diff = ds.time_bnds.diff(dim="nbnds")[:, 0]
    wgts = time_bound_diff.groupby("time.year")
           / time_bound_diff.groupby("time.year").sum(xr.ALL_DIMS)
    obs = ds["air"]
    cond = obs.isnull()
    ones = xr.where(cond, 0.0, 1.0)
    obs_sum = (obs * wgts).resample(time="AS").sum(dim="time")
    ones_out = (ones * wgts).resample(time="AS").sum(dim="time")
    obs_s = obs_sum / ones_out

A monthly sample is its calendar year, its interval duration
(`time_bnds` difference, a finite positive number of days), and its
value.  Both `groupby("time.year")` and `resample(time="AS")` group by
the calendar year, so a single `year` field serves both groupings. -/

/-- One monthly sample of the observational series at a fixed spatial
point: calendar year, interval duration in days (from `time_bnds`), and
the observed value. -/
structure MonthSample where
  year : ℤ
  duration : ℚ
  value : EFloat
  deriving DecidableEq, Repr

/-- The samples of calendar year `y`: the group formed by
`groupby("time.year")` and by `resample(time="AS")`. -/
def yearGroup (samples : List MonthSample) (y : ℤ) : List MonthSample :=
  samples.filter (fun s => decide (s.year = y))

/-- `time_bound_diff.groupby("time.year").sum(xr.ALL_DIMS)` at year `y`:
the total duration of the samples of that calendar year. -/
def yearDurTotal (samples : List MonthSample) (y : ℤ) : ℚ :=
  ((yearGroup samples y).map MonthSample.duration).sum

/-- `wgts` at a sample: its duration over the total duration of its own
calendar year. -/
def wgt (samples : List MonthSample) (s : MonthSample) : ℚ :=
  s.duration / yearDurTotal samples s.year

/-- `obs_sum` at year `y`: the skipna sum over the year's samples of
`value * weight` (a NaN value makes the product NaN, which the sum
drops). -/
def obs_sum (samples : List MonthSample) (y : ℤ) : EFloat :=
  skipnaSum ((yearGroup samples y).map
    (fun s => s.value.mul (EFloat.finite (wgt samples s))))

/-- `ones_out` at year `y`: `ones = xr.where(obs.isnull(), 0.0, 1.0)`,
then the skipna sum over the year's samples of `ones * weight` — i.e.
the weight mass attached to the valid (non-NaN) samples. -/
def ones_out (samples : List MonthSample) (y : ℤ) : EFloat :=
  skipnaSum ((yearGroup samples y).map
    (fun s => (EFloat.finite (if s.value.isnan then 0 else 1)).mul
      (EFloat.finite (wgt samples s))))

/-- `weighted_temporal_mean` at year `y` (per spatial point):
`obs_sum / ones_out`. -/
def weighted_temporal_mean (samples : List MonthSample) (y : ℤ) : EFloat :=
  (obs_sum samples y).div (ones_out samples y)

/-- The annual mean as the spec's words for claim C1 state it, for
comparison with `weighted_temporal_mean`: samples with *non-finite*
value are the invalid ones — they contribute zero to the numerator and
are excluded from the weight-normalization denominator, while the weight
of each sample is still its duration over the total duration of *all*
samples of its calendar year. -/
def specAnnualMean (samples : List MonthSample) (y : ℤ) : EFloat :=
  EFloat.div
    (EFloat.finite ((((yearGroup samples y).filter
        (fun s => s.value.isFinite)).map
        (fun s => s.value.val * wgt samples s)).sum))
    (EFloat.finite ((((yearGroup samples y).filter
        (fun s => s.value.isFinite)).map
        (fun s => wgt samples s)).sum))

/-- The plain period-fraction-weighted mean, with no missing-value
machinery at all, as the spec's words for claim C7 state it: every
sample weighted by its fraction of its year's total duration. -/
def periodFractionMean (samples : List MonthSample) (y : ℤ) : EFloat :=
  EFloat.finite
    (((yearGroup samples y).map
      (fun s => s.value.val * (s.duration / yearDurTotal samples y))).sum)

/-! ## Area-weighted global mean

The notebook's reduction over the spatial axes, e.g.

    cell_area = grid.area.load()
    total_area = cell_area.sum()
    t_20c_ts = (t_20c.resample(time="AS").mean("time") * cell_area)
                 .sum(dim=("lat", "lon")) / total_area

A Field is a function from its remaining indices (time, member) to the
list of its values over the reduced spatial cells, in a fixed cell
order; `cell_area` is the matching list of (finite, loaded) cell areas.
`.sum(dim=("lat","lon"))` is the skipna sum; `total_area` is the plain
sum of all cell areas, independent of the field's values. -/

/-- `total_area = cell_area.sum()`: the plain sum of the grid's cell
areas. -/
def total_area (cell_area : List ℚ) : ℚ := cell_area.sum

/-- The notebook's area-weighted mean at one remaining index `i`:
`(F * cell_area).sum(dim=("lat","lon")) / total_area`. -/
def weightedReduce {ι : Type} (F : ι → List EFloat) (cell_area : List ℚ)
    (i : ι) : EFloat :=
  (skipnaSum (((F i).zip cell_area).map
      (fun c => c.1.mul (EFloat.finite c.2)))).div
    (EFloat.finite (total_area cell_area))

/-- The unweighted arithmetic mean of a list of rationals (for claim C6:
what a uniform weighting is supposed to degenerate to). -/
def arithMeanList (l : List ℚ) : ℚ := l.sum / l.length

/-! ## Linear-trend estimator (`linear_trend` / `calc_slope`)

    def calc_slope(y):
        x = np.arange(len(y))
        finite_indexes = ~np.isnan(y)
        slope = np.nan if (np.sum(finite_indexes) < 2) else
                np.polyfit(x[finite_indexes], y[finite_indexes], 1)[0]
        return slope

    def linear_trend(da, dim="time"):
        return xr.apply_ufunc(calc_slope, da.chunk({dim: -1}),
            vectorize=True, input_core_dims=[[dim]], ...)

`linear_trend` applies `calc_slope` to the 1-D time slice at every
combination of non-time indices; a slice is a list of scalars and a
Field is a function from the non-time index to its slice. -/

/-- `x[finite_indexes], y[finite_indexes]`: the sample points kept by the
mask `~np.isnan(y)` — index paired with value, NaN entries removed (the
mask is an is-NaN test, so infinite values are kept). -/
def keptSamples (y : List EFloat) : List (ℕ × EFloat) :=
  y.enum.filter (fun p => !p.2.isnan)

/-- The ordinary-least-squares degree-1 slope of value against index over
a list of (index, rational value) points, by the standard closed form
`(n*Σxy − Σx*Σy) / (n*Σx² − (Σx)²)`. -/
def olsSlopePts (pts : List (ℕ × ℚ)) : ℚ :=
  let n : ℚ := pts.length
  let sx : ℚ := (pts.map (fun p => (p.1 : ℚ))).sum
  let sy : ℚ := (pts.map (fun p => p.2)).sum
  let sxy : ℚ := (pts.map (fun p => (p.1 : ℚ) * p.2)).sum
  let sxx : ℚ := (pts.map (fun p => (p.1 : ℚ) ^ 2)).sum
  (n * sxy - sx * sy) / (n * sxx - sx ^ 2)

/-- Modelled from the spec: `np.polyfit(x, y, 1)[0]`, numpy's
least-squares polynomial fit of degree 1 (an external library routine,
not code of this repository).  On all-finite input it is the
ordinary-least-squares slope; on input containing an infinity the
least-squares routine has no finite solution and yields no finite slope,
modelled as NaN. -/
def polyfit1 (pts : List (ℕ × EFloat)) : EFloat :=
  if pts.all (fun p => p.2.isFinite) then
    EFloat.finite (olsSlopePts (pts.map (fun p => (p.1, p.2.val))))
  else EFloat.nan

/-- `calc_slope`: NaN when fewer than 2 samples survive the is-NaN mask,
otherwise the degree-1 fit over the surviving samples.  A total
function: every input yields a value, no error path. -/
def calc_slope (y : List EFloat) : EFloat :=
  if (keptSamples y).length < 2 then EFloat.nan
  else polyfit1 (keptSamples y)

/-- `linear_trend`: `calc_slope` applied independently to the 1-D time
slice at every combination of non-time indices. -/
def linear_trend {ι : Type} (da : ι → List EFloat) : ι → EFloat :=
  fun i => calc_slope (da i)

/-- The per-slice slope as the spec's words for claim C3 state it, for
comparison with `calc_slope`: samples with *non-finite* value are dropped
from the fit, and with fewer than 2 finite samples the result is the NaN
sentinel. -/
def specCalcSlope (y : List EFloat) : EFloat :=
  let kept := y.enum.filter (fun p => p.2.isFinite)
  if kept.length < 2 then EFloat.nan
  else EFloat.finite (olsSlopePts (kept.map (fun p => (p.1, p.2.val))))

/-- The perfectly linear synthetic series `y_i = 2*i + 5` of length `T`. -/
def linSeries (T : ℕ) : List EFloat :=
  (List.range T).map (fun k : ℕ => EFloat.finite (2 * (k : ℚ) + 5))

/-! ## December-anchored quarterly resample and the winter-season count

    seasons = t.sel(time=slice("1979", "2012")).resample(time="QS-DEC").mean("time")
    seasons = seasons.sel(time=slice("1979", "2012"))
    winter_seasons = seasons.sel(
        time=seasons.time.where(seasons.time.dt.month == 12, drop=True))
    assert len(winter_seasons.time) == 34

Only the time axis matters for the period count.  A time coordinate is
its calendar year and month; the underlying data are daily, but every
day of a month falls in the same December-anchored quarter as the month
itself, so the set of period labels produced by `resample(time="QS-DEC")`
is determined by the (year, month) pairs present. -/

/-- A calendar year/month time coordinate (`month` ranges over 1..12). -/
structure YM where
  year : ℤ
  month : ℤ
  deriving DecidableEq, Repr

/-- The start of the December-anchored quarter (`QS-DEC`) containing a
given month: quarters begin in December, March, June and September, and
January/February belong to the quarter that began the previous December. -/
def quarterStartDec (t : YM) : YM :=
  if t.month = 12 then ⟨t.year, 12⟩
  else if t.month ≤ 2 then ⟨t.year - 1, 12⟩
  else if t.month ≤ 5 then ⟨t.year, 3⟩
  else if t.month ≤ 8 then ⟨t.year, 6⟩
  else ⟨t.year, 9⟩

/-- The period labels produced by `resample(time="QS-DEC")`: one label
per distinct quarter start among the time coordinates. -/
def resampleLabelsQSDec (times : List YM) : List YM :=
  (times.map quarterStartDec).dedup

/-- `.sel(time=slice(str(a), str(b)))` on a label axis: keep the labels
whose year lies in `a..b` inclusive. -/
def selYears (a b : ℤ) (times : List YM) : List YM :=
  times.filter (fun t => decide (a ≤ t.year) && decide (t.year ≤ b))

/-- `.where(time.dt.month == 12, drop=True)`: keep the December-anchored
labels. -/
def winterLabels (times : List YM) : List YM :=
  times.filter (fun t => decide (t.month = 12))

/-- The time coordinates (at month granularity) of the 1979–2012
selection of the concatenated 20C/RCP8.5 data: every month of every year
from 1979 through 2012. -/
def timeAxis7912 : List YM :=
  (List.range 34).flatMap (fun yi =>
    (List.range 12).map (fun mi => ⟨1979 + (yi : ℤ), (mi : ℤ) + 1⟩))

/-- `winter_seasons.time` of the notebook: resample labels over
1979–2012, re-selected to 1979–2012 (dropping the partial leading
1978-12 quarter), then restricted to December-anchored labels. -/
def winter_seasons_time : List YM :=
  winterLabels (selYears 1979 2012 (resampleLabelsQSDec timeAxis7912))

/-! ## Lemmas -/

theorem skipnaSum_cons_nan (v : EFloat) (l : List EFloat) (h : v.isnan = true) :
    skipnaSum (v :: l) = skipnaSum l := by
  cases v <;> simp_all [skipnaSum, EFloat.isnan]

theorem skipnaSum_cons_finite (q : ℚ) (l : List EFloat) :
    skipnaSum (EFloat.finite q :: l) =
      (EFloat.finite q).add (skipnaSum l) := by
  simp [skipnaSum, EFloat.isnan]

/-- On a list whose entries are each finite or NaN, the skipna sum is the
finite sum of the values of the non-NaN entries. -/
theorem skipnaSum_finOrNan (l : List EFloat) (h : l.all finOrNan = true) :
    skipnaSum l =
      EFloat.finite (((l.filter (fun v => !v.isnan)).map EFloat.val).sum) := by
  induction l with
  | nil => rfl
  | cons v t ih =>
      simp only [List.all_cons, Bool.and_eq_true] at h
      rcases h with ⟨hv, ht⟩
      cases v with
      | finite q =>
          rw [skipnaSum_cons_finite, ih ht]
          simp [EFloat.add, EFloat.isnan, EFloat.val]
      | pinf => simp [finOrNan, EFloat.isFinite, EFloat.isnan] at hv
      | ninf => simp [finOrNan, EFloat.isFinite, EFloat.isnan] at hv
      | nan =>
          rw [skipnaSum_cons_nan EFloat.nan t rfl, ih ht]
          simp [EFloat.isnan]

/-- On an all-finite list the skipna sum is just the finite sum of values. -/
theorem skipnaSum_finite_all (l : List EFloat) (h : l.all EFloat.isFinite = true) :
    skipnaSum l = EFloat.finite ((l.map EFloat.val).sum) := by
  have hfn : l.all finOrNan = true := by
    simp only [List.all_eq_true] at h ⊢
    intro v hv
    simp [finOrNan, h v hv]
  rw [skipnaSum_finOrNan l hfn]
  congr 1
  have : l.filter (fun v => !v.isnan) = l := by
    apply List.filter_eq_self.mpr
    intro v hv
    have := (List.all_eq_true).mp h v hv
    cases v <;> simp_all [EFloat.isnan, EFloat.isFinite]
  rw [this]

/-- Dividing one finite value by a nonzero finite value is exact
rational division. -/
theorem finite_div_finite (a b : ℚ) (hb : b ≠ 0) :
    (EFloat.finite a).div (EFloat.finite b) = EFloat.finite (a / b) := by
  simp [EFloat.div, hb]

/-- The skipna sum of `value * finite-weight` over a list whose values
are finite or NaN: the NaN-valued entries drop out of the sum, the rest
contribute `value * weight`. -/
theorem skipnaSum_map_mul {α : Type} (g : List α) (v : α → EFloat) (w : α → ℚ)
    (h : ∀ s ∈ g, finOrNan (v s) = true) :
    skipnaSum (g.map (fun s => (v s).mul (EFloat.finite (w s)))) =
      EFloat.finite (((g.filter (fun s => !(v s).isnan)).map
        (fun s => (v s).val * w s)).sum) := by
  induction g with
  | nil => rfl
  | cons s t ih =>
      have hs := h s (List.mem_cons_self s t)
      have ht : ∀ x ∈ t, finOrNan (v x) = true :=
        fun x hx => h x (List.mem_cons_of_mem s hx)
      simp only [List.map_cons, List.filter_cons]
      cases hv : v s with
      | finite q =>
          rw [show (EFloat.finite q).mul (EFloat.finite (w s)) =
                EFloat.finite (q * w s) from rfl,
            skipnaSum_cons_finite, ih ht]
          simp [EFloat.add, EFloat.isnan, EFloat.val, hv]
      | pinf => simp [finOrNan, EFloat.isFinite, EFloat.isnan, hv] at hs
      | ninf => simp [finOrNan, EFloat.isFinite, EFloat.isnan, hv] at hs
      | nan =>
          rw [show EFloat.nan.mul (EFloat.finite (w s)) = EFloat.nan from rfl,
            skipnaSum_cons_nan EFloat.nan _ rfl, ih ht]
          simp [EFloat.isnan]

/-- Summing `(0 if P else w)` over a list is summing `w` over the
entries where `P` fails. -/
theorem sum_where_indicator {α : Type} (g : List α) (P : α → Bool) (w : α → ℚ) :
    (g.map (fun s => if P s then (0 : ℚ) else w s)).sum =
      ((g.filter (fun s => !P s)).map w).sum := by
  induction g with
  | nil => rfl
  | cons s t ih =>
      cases hP : P s <;> simp [List.filter_cons, hP, ih]

/-- `obs_sum` in closed form: the valid (non-NaN) samples of the year
contribute `value * weight`. -/
theorem obs_sum_eq (samples : List MonthSample) (y : ℤ)
    (h : ∀ s ∈ yearGroup samples y, finOrNan s.value = true) :
    obs_sum samples y =
      EFloat.finite ((((yearGroup samples y).filter
        (fun s => !s.value.isnan)).map
        (fun s => s.value.val * wgt samples s)).sum) :=
  skipnaSum_map_mul (yearGroup samples y) (fun s => s.value)
    (fun s => wgt samples s) h

/-- `ones_out` in closed form: the total weight of the valid (non-NaN)
samples of the year. -/
theorem ones_out_eq (samples : List MonthSample) (y : ℤ) :
    ones_out samples y =
      EFloat.finite ((((yearGroup samples y).filter
        (fun s => !s.value.isnan)).map
        (fun s => wgt samples s)).sum) := by
  unfold ones_out
  rw [skipnaSum_finite_all _ (by
    simp only [List.all_eq_true, List.mem_map]
    rintro v ⟨s, _, rfl⟩
    rfl)]
  rw [List.map_map]
  have hfun : (EFloat.val ∘ fun s =>
      (EFloat.finite (if s.value.isnan then 0 else 1)).mul
        (EFloat.finite (wgt samples s))) =
      fun s => if s.value.isnan then (0 : ℚ) else wgt samples s := by
    funext s
    cases hc : s.value.isnan <;>
      simp [Function.comp, EFloat.mul, EFloat.val, hc]
  rw [hfun, sum_where_indicator]

/-! ### Lemmas about the trend estimator -/

/-- On an all-finite slice the is-NaN mask keeps every sample. -/
theorem keptSamples_all_finite (y : List EFloat)
    (h : y.all EFloat.isFinite = true) : keptSamples y = y.enum := by
  unfold keptSamples
  apply List.filter_eq_self.mpr
  intro p hp
  have h2 : p.2 ∈ y := by
    have := List.mem_map_of_mem Prod.snd hp
    rwa [List.enum_map_snd] at this
  have h3 := List.all_eq_true.mp h p.2 h2
  rcases p with ⟨i, v⟩
  cases v <;> simp_all [EFloat.isnan, EFloat.isFinite]

/-- Filtering enumerated pairs on the value's is-NaN mask keeps as many
entries as filtering the values themselves. -/
theorem enumFrom_filter_isnan_length (l : List EFloat) : ∀ n : ℕ,
    ((l.enumFrom n).filter (fun p => !p.2.isnan)).length =
      (l.filter (fun v => !v.isnan)).length := by
  induction l with
  | nil => intro n; rfl
  | cons v t ih =>
      intro n
      simp only [List.enumFrom, List.filter_cons]
      cases hv : v.isnan <;> simp [hv, ih (n + 1)]

/-- The surviving-sample count of `calc_slope` is the count of non-NaN
values. -/
theorem keptSamples_length (y : List EFloat) :
    (keptSamples y).length = (y.filter (fun v => !v.isnan)).length :=
  enumFrom_filter_isnan_length y 0

/-- The enumeration of `range n` pairs each index with itself. -/
theorem enum_range_self (n : ℕ) :
    (List.range n).enum = (List.range n).map (fun k => (k, k)) := by
  rw [List.enum_eq_zip_range, List.length_range]
  have h := List.zip_map' (id : ℕ → ℕ) (id : ℕ → ℕ) (List.range n)
  simpa using h

theorem lsum_range_step (f : ℕ → ℚ) (n : ℕ) :
    ((List.range (n + 1)).map f).sum = ((List.range n).map f).sum + f n := by
  rw [List.range_succ, List.map_append, List.sum_append]
  simp

theorem lsum_range_id (n : ℕ) :
    ((List.range n).map (fun k : ℕ => (k : ℚ))).sum = n * (n - 1) / 2 := by
  induction n with
  | zero => simp
  | succ m ih => rw [lsum_range_step, ih]; push_cast; ring

theorem lsum_range_sq (n : ℕ) :
    ((List.range n).map (fun k : ℕ => ((k : ℚ)) ^ 2)).sum =
      n * (n - 1) * (2 * n - 1) / 6 := by
  induction n with
  | zero => simp
  | succ m ih => rw [lsum_range_step, ih]; push_cast; ring

theorem lsum_range_linear (a b : ℚ) (n : ℕ) :
    ((List.range n).map (fun k : ℕ => a * (k : ℚ) + b)).sum =
      a * (n * (n - 1) / 2) + b * n := by
  induction n with
  | zero => simp
  | succ m ih => rw [lsum_range_step, ih]; push_cast; ring

theorem lsum_range_klinear (a b : ℚ) (n : ℕ) :
    ((List.range n).map (fun k : ℕ => (k : ℚ) * (a * (k : ℚ) + b))).sum =
      a * (n * (n - 1) * (2 * n - 1) / 6) + b * (n * (n - 1) / 2) := by
  induction n with
  | zero => simp
  | succ m ih => rw [lsum_range_step, ih]; push_cast; ring

/-- The closed-form OLS slope recovers the coefficient of perfectly
linear data `y_k = a*k + b` sampled at indices `0..n-1`, for `n ≥ 2`. -/
theorem olsSlopePts_linear (a b : ℚ) (n : ℕ) (hn : 2 ≤ n) :
    olsSlopePts ((List.range n).map (fun k => (k, a * (k : ℚ) + b))) = a := by
  have hN : (2 : ℚ) ≤ (n : ℚ) := by exact_mod_cast hn
  have h1 : ((List.range n).map (fun k => ((k : ℕ), a * (k : ℚ) + b))).map
      (fun p => (p.1 : ℚ)) = (List.range n).map (fun k : ℕ => (k : ℚ)) := by
    rw [List.map_map]; rfl
  have h2 : ((List.range n).map (fun k => ((k : ℕ), a * (k : ℚ) + b))).map
      (fun p => p.2) = (List.range n).map (fun k : ℕ => a * (k : ℚ) + b) := by
    rw [List.map_map]; rfl
  have h3 : ((List.range n).map (fun k => ((k : ℕ), a * (k : ℚ) + b))).map
      (fun p => (p.1 : ℚ) * p.2) =
      (List.range n).map (fun k : ℕ => (k : ℚ) * (a * (k : ℚ) + b)) := by
    rw [List.map_map]; rfl
  have h4 : ((List.range n).map (fun k => ((k : ℕ), a * (k : ℚ) + b))).map
      (fun p => (p.1 : ℚ) ^ 2) = (List.range n).map (fun k : ℕ => ((k : ℚ)) ^ 2) := by
    rw [List.map_map]; rfl
  simp only [olsSlopePts, h1, h2, h3, h4, List.length_map, List.length_range]
  rw [lsum_range_id, lsum_range_sq, lsum_range_linear, lsum_range_klinear]
  have hden : (n : ℚ) * ((n : ℚ) * ((n : ℚ) - 1) * (2 * (n : ℚ) - 1) / 6) -
      ((n : ℚ) * ((n : ℚ) - 1) / 2) ^ 2 =
      (n : ℚ) ^ 2 * ((n : ℚ) - 1) * ((n : ℚ) + 1) / 12 := by ring
  have hnum : (n : ℚ) * (a * ((n : ℚ) * ((n : ℚ) - 1) * (2 * (n : ℚ) - 1) / 6) +
      b * ((n : ℚ) * ((n : ℚ) - 1) / 2)) -
      (n : ℚ) * ((n : ℚ) - 1) / 2 * (a * ((n : ℚ) * ((n : ℚ) - 1) / 2) + b * (n : ℚ)) =
      a * ((n : ℚ) ^ 2 * ((n : ℚ) - 1) * ((n : ℚ) + 1) / 12) := by ring
  rw [hnum, hden]
  have hpos : 0 < (n : ℚ) ^ 2 * ((n : ℚ) - 1) * ((n : ℚ) + 1) / 12 := by
    have hn0 : (0 : ℚ) < (n : ℚ) := by linarith
    have hn1 : (0 : ℚ) < (n : ℚ) - 1 := by linarith
    have hn2 : (0 : ℚ) < (n : ℚ) + 1 := by linarith
    have := mul_pos (mul_pos (pow_pos hn0 2) hn1) hn2
    linarith
  rw [mul_div_assoc, div_self (ne_of_gt hpos), mul_one]

/-- `calc_slope` on an all-finite slice of length at least 2 is the
finite OLS slope over all of its samples. -/
theorem calc_slope_finite_eq (y : List EFloat) (hlen : 2 ≤ y.length)
    (h : y.all EFloat.isFinite = true) :
    calc_slope y =
      EFloat.finite (olsSlopePts (y.enum.map (fun p => (p.1, p.2.val)))) := by
  unfold calc_slope
  rw [keptSamples_all_finite y h]
  rw [if_neg (by rw [List.enum_length]; omega)]
  unfold polyfit1
  rw [if_pos]
  apply List.all_eq_true.mpr
  intro p hp
  have h2 : p.2 ∈ y := by
    have := List.mem_map_of_mem Prod.snd hp
    rwa [List.enum_map_snd] at this
  exact List.all_eq_true.mp h p.2 h2

/-! ## Claims -/

/-- C1 (amended): in the duration-weighted annual resample each sample
carries weight `duration / (total duration of its calendar year)`, a
sample with NaN value contributes zero to the weighted numerator and is
excluded from the weight-normalization denominator, and each annual
output is the sum of valid `value * weight` over the restricted weight
sum — provided the samples carry finite-or-NaN values, positive
durations, and the year has at least one valid sample. -/
theorem weighted_temporal_mean_nan_weighting (samples : List MonthSample)
    (y : ℤ)
    (hval : ∀ s ∈ yearGroup samples y, finOrNan s.value = true)
    (hdur : ∀ s ∈ samples, 0 < s.duration)
    (hvalid : ∃ s ∈ yearGroup samples y, s.value.isnan = false) :
    weighted_temporal_mean samples y =
      EFloat.finite
        (((((yearGroup samples y).filter (fun s => !s.value.isnan)).map
            (fun s => s.value.val * wgt samples s)).sum) /
         ((((yearGroup samples y).filter (fun s => !s.value.isnan)).map
            (fun s => wgt samples s)).sum)) := by
  have hyd : 0 < yearDurTotal samples y := by
    apply List.sum_pos
    · intro x hx
      obtain ⟨s, hs, rfl⟩ := List.mem_map.mp hx
      exact hdur s (List.mem_of_mem_filter hs)
    · obtain ⟨s0, hs0, _⟩ := hvalid
      exact List.ne_nil_of_mem (List.mem_map_of_mem MonthSample.duration hs0)
  have hB : 0 < ((((yearGroup samples y).filter (fun s => !s.value.isnan)).map
      (fun s => wgt samples s)).sum) := by
    apply List.sum_pos
    · intro x hx
      obtain ⟨s, hs, rfl⟩ := List.mem_map.mp hx
      have hsy : s ∈ yearGroup samples y := List.mem_of_mem_filter hs
      have hy : s.year = y := by
        have := (List.mem_filter.mp hsy).2
        simpa using this
      have hd : 0 < s.duration := hdur s (List.mem_of_mem_filter hsy)
      rw [wgt, hy]
      exact div_pos hd hyd
    · obtain ⟨s0, hs0, hnn⟩ := hvalid
      have hmem : s0 ∈ (yearGroup samples y).filter (fun s => !s.value.isnan) :=
        List.mem_filter.mpr ⟨hs0, by simp [hnn]⟩
      exact List.ne_nil_of_mem (List.mem_map_of_mem _ hmem)
  rw [weighted_temporal_mean, obs_sum_eq samples y hval, ones_out_eq]
  exact finite_div_finite _ _ (ne_of_gt hB)

/-- C1 witness: a year with one valid sample (value 3) and one NaN
sample, equal durations; the resampled value is 3. -/
theorem weighted_temporal_mean_nan_weighting_witness :
    weighted_temporal_mean
      [⟨0, 1, EFloat.finite 3⟩, ⟨0, 1, EFloat.nan⟩] 0 = EFloat.finite 3 :=
  (weighted_temporal_mean_nan_weighting
    [⟨0, 1, EFloat.finite 3⟩, ⟨0, 1, EFloat.nan⟩] 0
    (by decide) (by decide) (by decide)).trans (by
      norm_num [yearGroup, wgt, yearDurTotal, EFloat.isnan, EFloat.val])

/-- C1 counterexample: the claim says *non-finite* samples are excluded,
but the code's mask is an is-NaN test, so an infinite sample is kept:
with samples `(+inf, 4)` of equal duration the code returns `+inf` while
the claim's formula (exclude non-finite) returns `4`. -/
theorem weighted_temporal_mean_nonfinite_kept :
    weighted_temporal_mean
      [⟨0, 1, EFloat.pinf⟩, ⟨0, 1, EFloat.finite 4⟩] 0 = EFloat.pinf ∧
    specAnnualMean
      [⟨0, 1, EFloat.pinf⟩, ⟨0, 1, EFloat.finite 4⟩] 0 = EFloat.finite 4 ∧
    weighted_temporal_mean
      [⟨0, 1, EFloat.pinf⟩, ⟨0, 1, EFloat.finite 4⟩] 0 ≠
      specAnnualMean [⟨0, 1, EFloat.pinf⟩, ⟨0, 1, EFloat.finite 4⟩] 0 := by
  have h1 : weighted_temporal_mean
      [⟨0, 1, EFloat.pinf⟩, ⟨0, 1, EFloat.finite 4⟩] 0 = EFloat.pinf := by
    norm_num [weighted_temporal_mean, obs_sum, ones_out, skipnaSum,
      yearGroup, wgt, yearDurTotal, EFloat.mul, EFloat.add, EFloat.div,
      EFloat.isnan, EFloat.val]
  have h2 : specAnnualMean
      [⟨0, 1, EFloat.pinf⟩, ⟨0, 1, EFloat.finite 4⟩] 0 = EFloat.finite 4 := by
    norm_num [specAnnualMean, yearGroup, wgt, yearDurTotal, EFloat.div,
      EFloat.isFinite, EFloat.val]
  refine ⟨h1, h2, ?_⟩
  rw [h1, h2]
  decide

/-- C7: on a year with no missing values (and positive durations), the
duration-weighted annual resample is exactly the plain period-fraction
weighted mean — the missing-value path (zero-filled numerator, restricted
denominator) changes nothing. -/
theorem weighted_temporal_mean_no_missing (samples : List MonthSample)
    (y : ℤ)
    (hfin : ∀ s ∈ yearGroup samples y, s.value.isFinite = true)
    (hdur : ∀ s ∈ samples, 0 < s.duration)
    (hne : yearGroup samples y ≠ []) :
    weighted_temporal_mean samples y = periodFractionMean samples y := by
  have hnn : ∀ s ∈ yearGroup samples y, s.value.isnan = false := by
    intro s hs
    have := hfin s hs
    cases hv : s.value <;> simp_all [EFloat.isFinite, EFloat.isnan]
  have hval : ∀ s ∈ yearGroup samples y, finOrNan s.value = true := by
    intro s hs
    simp [finOrNan, hfin s hs]
  have hfilter : (yearGroup samples y).filter (fun s => !s.value.isnan) =
      yearGroup samples y :=
    List.filter_eq_self.mpr (fun s hs => by simp [hnn s hs])
  have hyd : 0 < yearDurTotal samples y := by
    apply List.sum_pos
    · intro x hx
      obtain ⟨s, hs, rfl⟩ := List.mem_map.mp hx
      exact hdur s (List.mem_of_mem_filter hs)
    · intro hmap
      exact hne (List.map_eq_nil_iff.mp hmap)
  have hyear : ∀ s ∈ yearGroup samples y, s.year = y := by
    intro s hs
    have := (List.mem_filter.mp hs).2
    simpa using this
  have hwgt : ∀ s ∈ yearGroup samples y,
      wgt samples s = s.duration * (yearDurTotal samples y)⁻¹ := by
    intro s hs
    rw [wgt, hyear s hs, div_eq_mul_inv]
  have hden : ((yearGroup samples y).map (fun s => wgt samples s)).sum = 1 := by
    rw [List.map_congr_left hwgt, List.sum_map_mul_right]
    exact mul_inv_cancel₀ (ne_of_gt hyd)
  rw [weighted_temporal_mean, obs_sum_eq samples y hval, ones_out_eq,
    hfilter, hden, finite_div_finite _ 1 one_ne_zero, div_one]
  have hmapeq : (yearGroup samples y).map (fun s => s.value.val * wgt samples s)
      = (yearGroup samples y).map
          (fun s => s.value.val * (s.duration / yearDurTotal samples y)) := by
    apply List.map_congr_left
    intro s hs
    rw [wgt, hyear s hs]
  rw [periodFractionMean, hmapeq]

/-- C7 witness: two samples of one year with durations 1 and 3 and
values 8 and 4: both paths give `8*(1/4) + 4*(3/4) = 5`. -/
theorem weighted_temporal_mean_no_missing_witness :
    weighted_temporal_mean
      [⟨0, 1, EFloat.finite 8⟩, ⟨0, 3, EFloat.finite 4⟩] 0 =
      periodFractionMean
        [⟨0, 1, EFloat.finite 8⟩, ⟨0, 3, EFloat.finite 4⟩] 0 :=
  weighted_temporal_mean_no_missing
    [⟨0, 1, EFloat.finite 8⟩, ⟨0, 3, EFloat.finite 4⟩] 0
    (by decide) (by decide) (by decide)

/-- C2: on all-finite slices of length `T ≥ 2` the trend estimator
returns, independently at every combination of non-time indices, the
ordinary-least-squares degree-1 slope of value against sample index
`0..T-1`; in particular a slice that is the perfectly linear series
`y_i = 2*i + 5` yields slope exactly 2. -/
theorem linear_trend_ols (ι : Type) (F : ι → List EFloat) (T : ℕ)
    (hT : 2 ≤ T) (hlen : ∀ i, (F i).length = T)
    (hfin : ∀ i, (F i).all EFloat.isFinite = true) (i : ι) :
    linear_trend F i =
      EFloat.finite (olsSlopePts ((F i).enum.map (fun p => (p.1, p.2.val)))) ∧
    (F i = linSeries T → linear_trend F i = EFloat.finite 2) := by
  constructor
  · exact calc_slope_finite_eq (F i) (by rw [hlen i]; exact hT) (hfin i)
  · intro hFi
    have hlinlen : (linSeries T).length = T := by
      unfold linSeries
      rw [List.length_map, List.length_range]
    have hlinfin : (linSeries T).all EFloat.isFinite = true := by
      apply List.all_eq_true.mpr
      intro v hv
      obtain ⟨k, _, rfl⟩ := List.mem_map.mp hv
      rfl
    have henum : (linSeries T).enum.map (fun p => (p.1, p.2.val)) =
        (List.range T).map (fun k : ℕ => ((k, 2 * (k : ℚ) + 5) : ℕ × ℚ)) := by
      unfold linSeries
      rw [List.enum_map, List.map_map, enum_range_self, List.map_map]
      rfl
    have hcs : calc_slope (linSeries T) = EFloat.finite 2 := by
      rw [calc_slope_finite_eq (linSeries T) (by rw [hlinlen]; exact hT)
        hlinfin, henum, olsSlopePts_linear 2 5 T hT]
    show calc_slope (F i) = EFloat.finite 2
    rw [hFi]
    exact hcs

/-- C2 witness: the linear series of length 3 at the only index of a
one-point index set. -/
theorem linear_trend_ols_witness :
    linear_trend (fun _ : Unit => linSeries 3) () = EFloat.finite 2 :=
  (linear_trend_ols Unit (fun _ => linSeries 3) 3 (by decide)
    (fun _ => rfl) (fun _ => rfl) ()).2 rfl

/-- C3 counterexample: the claim says *non-finite* samples are dropped
from the fit; the code's mask drops only NaN.  On the slice
`[0, +inf, 2, 3]` the claim's reading fits the remaining finite points
`(0,0), (2,2), (3,3)` and returns slope 1, while the code passes the
infinity into the degree-1 fit and yields no finite slope. -/
theorem calc_slope_nonfinite_kept :
    calc_slope [EFloat.finite 0, EFloat.pinf, EFloat.finite 2,
      EFloat.finite 3] = EFloat.nan ∧
    specCalcSlope [EFloat.finite 0, EFloat.pinf, EFloat.finite 2,
      EFloat.finite 3] = EFloat.finite 1 ∧
    calc_slope [EFloat.finite 0, EFloat.pinf, EFloat.finite 2,
      EFloat.finite 3] ≠
      specCalcSlope [EFloat.finite 0, EFloat.pinf, EFloat.finite 2,
        EFloat.finite 3] := by
  have h1 : calc_slope [EFloat.finite 0, EFloat.pinf, EFloat.finite 2,
      EFloat.finite 3] = EFloat.nan := by
    norm_num [calc_slope, keptSamples, polyfit1, List.enum, List.enumFrom,
      EFloat.isnan, EFloat.isFinite]
  have h2 : specCalcSlope [EFloat.finite 0, EFloat.pinf, EFloat.finite 2,
      EFloat.finite 3] = EFloat.finite 1 := by
    norm_num [specCalcSlope, olsSlopePts, List.enum, List.enumFrom,
      EFloat.isnan, EFloat.isFinite, EFloat.val]
  refine ⟨h1, h2, ?_⟩
  rw [h1, h2]
  decide

/-- C3 (amended): samples with NaN value are dropped from the fit, and
whenever fewer than 2 non-NaN samples remain, `calc_slope` returns the
NaN sentinel for that slice (it is a total function — no error path). -/
theorem calc_slope_nan_policy (y : List EFloat) :
    ((y.filter (fun v => !v.isnan)).length < 2 → calc_slope y = EFloat.nan) ∧
    (2 ≤ (y.filter (fun v => !v.isnan)).length →
      calc_slope y = polyfit1 (y.enum.filter (fun p => !p.2.isnan))) := by
  constructor
  · intro h
    unfold calc_slope
    rw [if_pos (by rw [keptSamples_length]; exact h)]
  · intro h
    unfold calc_slope
    rw [if_neg (by rw [keptSamples_length]; omega)]
    rfl

/-- C3 witness: a slice with a single non-NaN sample returns NaN. -/
theorem calc_slope_nan_policy_witness :
    calc_slope [EFloat.nan, EFloat.finite 1, EFloat.nan] = EFloat.nan :=
  (calc_slope_nan_policy [EFloat.nan, EFloat.finite 1, EFloat.nan]).1
    (by decide)

/-- C9: the missing-sample test of `calc_slope` is an is-NaN test only:
every sample that is `+inf` or `-inf` passes the mask (its enumerated
pair is retained among the fit's samples), membership in the retained
samples is equivalent to not being NaN, and whenever at least 2 samples
pass the mask — infinities included — the guard does not trigger and the
retained samples (infinities included) are handed to the degree-1 fit. -/
theorem calc_slope_isnan_mask_only (y : List EFloat) :
    (∀ p ∈ y.enum, (p.2 = EFloat.pinf ∨ p.2 = EFloat.ninf) →
      p ∈ keptSamples y) ∧
    (∀ p ∈ y.enum, (p ∈ keptSamples y ↔ p.2.isnan = false)) ∧
    (2 ≤ (keptSamples y).length →
      calc_slope y = polyfit1 (keptSamples y)) := by
  refine ⟨?_, ?_, ?_⟩
  · intro p hp hinf
    apply List.mem_filter.mpr
    refine ⟨hp, ?_⟩
    rcases hinf with h | h <;> simp [h, EFloat.isnan]
  · intro p hp
    constructor
    · intro hk
      have := (List.mem_filter.mp hk).2
      simpa using this
    · intro hn
      exact List.mem_filter.mpr ⟨hp, by simp [hn]⟩
  · intro h
    unfold calc_slope
    rw [if_neg (by omega)]

/-- C9 witness: the slice `[+inf, 1]` — the infinite sample is retained
and counts, so the guard does not trigger. -/
theorem calc_slope_isnan_mask_only_witness :
    (0, EFloat.pinf) ∈ keptSamples [EFloat.pinf, EFloat.finite 1] ∧
    calc_slope [EFloat.pinf, EFloat.finite 1] =
      polyfit1 (keptSamples [EFloat.pinf, EFloat.finite 1]) :=
  ⟨(calc_slope_isnan_mask_only [EFloat.pinf, EFloat.finite 1]).1
      (0, EFloat.pinf) (by decide) (Or.inl rfl),
   (calc_slope_isnan_mask_only [EFloat.pinf, EFloat.finite 1]).2.2
      (by decide)⟩

/-! ### Lemmas about the weighted reduction -/

/-- Zipping a list with a same-length constant list pairs every element
with the constant. -/
theorem zip_replicate_self {α β : Type} (l : List α) (c : β) :
    l.zip (List.replicate l.length c) = l.map (fun v => (v, c)) := by
  induction l with
  | nil => rfl
  | cons v t ih => simp [List.replicate_succ, ih]

/-- C4: for a field with finite values and a weight list with
non-negative entries and nonzero total, the reduction produces, at every
remaining index, exactly `sum(F * W) / sum(W)`. -/
theorem weightedReduce_formula (ι : Type) (F : ι → List EFloat)
    (W : List ℚ) (i : ι)
    (_hlen : (F i).length = W.length)
    (hfin : ∀ v ∈ F i, v.isFinite = true)
    (_hW : ∀ w ∈ W, 0 ≤ w)
    (hsum : W.sum ≠ 0) :
    weightedReduce F W i =
      EFloat.finite ((((F i).zip W).map (fun c => c.1.val * c.2)).sum /
        W.sum) := by
  unfold weightedReduce total_area
  rw [skipnaSum_map_mul ((F i).zip W) (fun c => c.1) (fun c => c.2)
    (by
      intro c hc
      obtain ⟨a, b⟩ := c
      have := hfin a (List.of_mem_zip hc).1
      simp [finOrNan, this])]
  rw [List.filter_eq_self.mpr (by
    intro c hc
    obtain ⟨a, b⟩ := c
    have := hfin a (List.of_mem_zip hc).1
    cases a <;> simp_all [EFloat.isnan, EFloat.isFinite])]
  exact finite_div_finite _ _ hsum

/-- C4 witness: values 1 and 3 with unit weights average to 2. -/
theorem weightedReduce_formula_witness :
    weightedReduce (fun _ : Unit => [EFloat.finite 1, EFloat.finite 3])
      [1, 1] () = EFloat.finite 2 :=
  (weightedReduce_formula Unit
    (fun _ => [EFloat.finite 1, EFloat.finite 3]) [1, 1] ()
    rfl (by decide) (by decide) (by norm_num)).trans
    (by norm_num [EFloat.val])

/-- C6 counterexample: a uniform *zero* weight list does not reproduce
the unweighted mean — the code divides `0` by `0` and yields NaN, while
the unweighted mean of the single value 5 is 5. -/
theorem weightedReduce_uniform_zero :
    weightedReduce (fun _ : Unit => [EFloat.finite 5])
      (List.replicate 1 (0 : ℚ)) () = EFloat.nan ∧
    arithMeanList ([EFloat.finite 5].map EFloat.val) = 5 ∧
    weightedReduce (fun _ : Unit => [EFloat.finite 5])
      (List.replicate 1 (0 : ℚ)) () ≠
      EFloat.finite (arithMeanList ([EFloat.finite 5].map EFloat.val)) := by
  have h1 : weightedReduce (fun _ : Unit => [EFloat.finite 5])
      (List.replicate 1 (0 : ℚ)) () = EFloat.nan := by
    norm_num [weightedReduce, total_area, skipnaSum, EFloat.mul,
      EFloat.add, EFloat.div, EFloat.isnan, List.replicate]
  have h2 : arithMeanList ([EFloat.finite 5].map EFloat.val) = 5 := by
    norm_num [arithMeanList, EFloat.val]
  refine ⟨h1, h2, ?_⟩
  rw [h1, h2]
  decide

/-- C6 (amended): a weight list that is a uniform *nonzero* constant
across the reduced cells makes the weighted reduction equal to the
unweighted arithmetic mean of the (finite) field values. -/
theorem weightedReduce_uniform_eq_mean (ι : Type) (F : ι → List EFloat)
    (c : ℚ) (i : ι)
    (hc : c ≠ 0)
    (hne : F i ≠ [])
    (hfin : ∀ v ∈ F i, v.isFinite = true) :
    weightedReduce F (List.replicate (F i).length c) i =
      EFloat.finite (arithMeanList ((F i).map EFloat.val)) := by
  have hn : (F i).length ≠ 0 := by
    intro h
    exact hne (List.length_eq_zero.mp h)
  unfold weightedReduce total_area
  rw [zip_replicate_self (F i) c, List.map_map]
  have hcomp : ((fun c2 : EFloat × ℚ => c2.1.mul (EFloat.finite c2.2)) ∘
      (fun v : EFloat => (v, c))) =
      fun v : EFloat => v.mul (EFloat.finite c) := rfl
  rw [hcomp]
  rw [skipnaSum_map_mul (F i) (fun v => v) (fun _ => c)
    (by
      intro v hv
      simp [finOrNan, hfin v hv])]
  rw [List.filter_eq_self.mpr (by
    intro v hv
    have := hfin v hv
    cases v <;> simp_all [EFloat.isnan, EFloat.isFinite])]
  rw [List.sum_replicate, nsmul_eq_mul]
  rw [List.sum_map_mul_right]
  rw [finite_div_finite _ _ (by
    exact mul_ne_zero (Nat.cast_ne_zero.mpr hn) hc)]
  have hns : ((F i).length : ℚ) ≠ 0 := Nat.cast_ne_zero.mpr hn
  rw [arithMeanList, List.length_map]
  congr 1
  field_simp
  ring

/-- C6 witness: values 1 and 3 with uniform weight 7 average to 2. -/
theorem weightedReduce_uniform_eq_mean_witness :
    weightedReduce (fun _ : Unit => [EFloat.finite 1, EFloat.finite 3])
      (List.replicate 2 (7 : ℚ)) () =
      EFloat.finite (arithMeanList
        ([EFloat.finite 1, EFloat.finite 3].map EFloat.val)) :=
  weightedReduce_uniform_eq_mean Unit
    (fun _ => [EFloat.finite 1, EFloat.finite 3]) 7 ()
    (by norm_num) (by decide) (by decide)

/-- C10: a NaN spatial sample contributes zero to the weighted numerator
while the weight (cell-area) total in the denominator is unchanged: the
output is the finite sum of `value * weight` over the non-NaN cells
divided by the total weight of *all* cells — in particular not NaN, and
not a mean renormalized over the valid cells only. -/
theorem weightedReduce_missing_policy (ι : Type) (F : ι → List EFloat)
    (W : List ℚ) (i : ι)
    (hfn : ∀ v ∈ F i, finOrNan v = true)
    (_hnan : ∃ v ∈ F i, v.isnan = true)
    (hsum : W.sum ≠ 0) :
    weightedReduce F W i =
      EFloat.finite (((((F i).zip W).filter (fun c => !c.1.isnan)).map
        (fun c => c.1.val * c.2)).sum / W.sum) ∧
    weightedReduce F W i ≠ EFloat.nan := by
  have h1 : weightedReduce F W i =
      EFloat.finite (((((F i).zip W).filter (fun c => !c.1.isnan)).map
        (fun c => c.1.val * c.2)).sum / W.sum) := by
    unfold weightedReduce total_area
    rw [skipnaSum_map_mul ((F i).zip W) (fun c => c.1) (fun c => c.2)
      (by
        intro c hc
        obtain ⟨a, b⟩ := c
        exact hfn a (List.of_mem_zip hc).1)]
    exact finite_div_finite _ _ hsum
  refine ⟨h1, ?_⟩
  rw [h1]
  intro h
  exact EFloat.noConfusion h

/-- C10 witness: cells `(4, area 1)` and `(NaN, area 3)`: the output is
`4 / 4 = 1`, not NaN. -/
theorem weightedReduce_missing_policy_witness :
    weightedReduce (fun _ : Unit => [EFloat.finite 4, EFloat.nan])
      [1, 3] () = EFloat.finite 1 ∧
    weightedReduce (fun _ : Unit => [EFloat.finite 4, EFloat.nan])
      [1, 3] () ≠ EFloat.nan :=
  ⟨((weightedReduce_missing_policy Unit
      (fun _ => [EFloat.finite 4, EFloat.nan]) [1, 3] ()
      (by decide) (by decide) (by norm_num)).1).trans
      (by norm_num [EFloat.isnan, EFloat.val]),
   (weightedReduce_missing_policy Unit
      (fun _ => [EFloat.finite 4, EFloat.nan]) [1, 3] ()
      (by decide) (by decide) (by norm_num)).2⟩

set_option maxRecDepth 40000 in
/-- C5: a December-anchored quarterly resample of the 1979–2012 range
(34 full winters), re-selected to 1979–2012 and restricted to the
December-anchored periods, yields exactly 34 periods; the count is
queryable as the length of the period-label axis, so a caller can assert
it (`assert len(winter_seasons.time) == 34`). -/
theorem winter_seasons_count_34 : winter_seasons_time.length = 34 := by
  decide

end CesmLens
